import Mathlib

/-!
Shallow embedding of `merge_bible_references.py`.

The script merges a directory of JSON files (each a JSON object mapping
verse identifiers to verse records) into one combined mapping, prints
statistics, and then analyzes the merged data, tallying verses per book.

JSON values are embedded as the inductive `JValue`; Python dicts are
insertion-ordered association lists.  Python operations that can raise
(`.items()`, `.get`, `len`, `[...]`, `in`, `.split()[0]`, `dict.update`)
are embedded in the `Except PyErr` monad; an exception escaping the
per-file `try` block of `merge_json_files` is caught there, while the
statistics line and `analyze_data` run outside any `try`, so errors
there propagate.
-/

namespace BibleMerge

/-- A JSON value, as produced by `json.load`. -/
inductive JValue where
  | null
  | bool (b : Bool)
  | num (n : Int)
  | str (s : String)
  | arr (elems : List JValue)
  | obj (fields : List (String × JValue))

/-- A JSON object / Python dict: insertion-ordered association list. -/
abbrev Obj := List (String × JValue)

/-- Python exception kinds raised by the operations this script uses. -/
inductive PyErr where
  | attrError
  | typeError
  | indexError
  | keyError
deriving DecidableEq

/-- Dictionary lookup (`d[k]` when the key is known present, `d.get(k)`). -/
def lookup? (o : Obj) (k : String) : Option JValue :=
  match o with
  | [] => none
  | (k', v) :: rest => if k' = k then some v else lookup? rest k

/-- Python `k in d` for a dict. -/
def hasKey (o : Obj) (k : String) : Bool :=
  (lookup? o k).isSome

/-- Python `d[k] = v`: replace in place if present, else append at the end. -/
def setKey (o : Obj) (k : String) (v : JValue) : Obj :=
  match o with
  | [] => [(k, v)]
  | (k', v') :: rest => if k' = k then (k, v) :: rest else (k', v') :: setKey rest k v

/-- Python `base.update(upd)` for dicts: each key of `upd`, in order, is set. -/
def dictUpdate (base upd : Obj) : Obj :=
  upd.foldl (fun acc kv => setKey acc kv.1 kv.2) base

/-- The keys of a dict, in order. -/
def keysOf (o : Obj) : List String :=
  o.map Prod.fst

/-- Whether a JSON value is an object. -/
def isObj : JValue → Bool
  | .obj _ => true
  | _ => false

/-- Whether the first list of characters is a leading segment of the
second. -/
def charsLead : List Char → List Char → Bool
  | [], _ => true
  | _ :: _, [] => false
  | k :: ks, c :: cs => if k = c then charsLead ks cs else false

/-- Whether the first list of characters occurs contiguously in the
second. -/
def charsSub (k : List Char) : List Char → Bool
  | [] => k.isEmpty
  | c :: cs => charsLead k (c :: cs) || charsSub k cs

/-- Python string containment `k in s` (substring test). -/
def strContainsSub (s k : String) : Bool :=
  charsSub k.data s.data

/-- Python `k in v` for the value shapes JSON can produce: key test on a
dict, substring test on a string, element test on a list (the needle here
is always a string, and distinct-type JSON values compare unequal in
Python), `TypeError` otherwise. -/
def pyContains (k : String) (v : JValue) : Except PyErr Bool :=
  match v with
  | .obj o => .ok (hasKey o k)
  | .str s => .ok (strContainsSub s k)
  | .arr xs => .ok (xs.any fun x => match x with | .str s => s = k | _ => false)
  | _ => .error .typeError

/-- Python subscript `v[k]` with a string key: `KeyError` on a missing dict
key, `TypeError` on non-dicts (string/list indices must be integers). -/
def pySubscript (v : JValue) (k : String) : Except PyErr JValue :=
  match v with
  | .obj o =>
    match lookup? o k with
    | some x => .ok x
    | none => .error .keyError
  | _ => .error .typeError

/-- Python `v.get(k, dflt)`: `AttributeError` when `v` is not a dict. -/
def pyGet (v : JValue) (k : String) (dflt : JValue) : Except PyErr JValue :=
  match v with
  | .obj o => .ok ((lookup? o k).getD dflt)
  | _ => .error .attrError

/-- Python `len(v)`: `TypeError` on unsized values. -/
def pyLen : JValue → Except PyErr Nat
  | .obj o => .ok o.length
  | .arr l => .ok l.length
  | .str s => .ok s.length
  | _ => .error .typeError

/-- Python truthiness of a JSON value. -/
def pyTruthy : JValue → Bool
  | .null => false
  | .bool b => b
  | .num n => n != 0
  | .str s => !s.isEmpty
  | .arr l => !l.isEmpty
  | .obj o => !o.isEmpty

/-- Python's whitespace test, as used by `str.split()` with no
arguments (CPython's `Py_UNICODE_ISSPACE`): the ASCII whitespace
controls U+0009-U+000D (tab, LF, VT, FF, CR) and U+001C-U+001F, the
space, NEL U+0085, NBSP U+00A0, OGHAM SPACE MARK U+1680, the Unicode
space separators U+2000-U+200A, LINE/PARAGRAPH SEPARATOR U+2028/U+2029,
NARROW NBSP U+202F, MEDIUM MATHEMATICAL SPACE U+205F, and IDEOGRAPHIC
SPACE U+3000. -/
def pyIsSpace (c : Char) : Bool :=
  (0x09 ≤ c.toNat && c.toNat ≤ 0x0D) ||
  (0x1C ≤ c.toNat && c.toNat ≤ 0x1F) ||
  c.toNat == 0x20 || c.toNat == 0x85 || c.toNat == 0xA0 ||
  c.toNat == 0x1680 ||
  (0x2000 ≤ c.toNat && c.toNat ≤ 0x200A) ||
  c.toNat == 0x2028 || c.toNat == 0x2029 ||
  c.toNat == 0x202F || c.toNat == 0x205F || c.toNat == 0x3000

/-- Accumulating splitter behind `pySplit`: `cur` holds the characters of
the token in progress, reversed. -/
def splitWsAux (cur : List Char) : List Char → List String
  | [] => if cur.isEmpty then [] else [cur.reverse.asString]
  | c :: cs =>
    if pyIsSpace c then
      if cur.isEmpty then splitWsAux [] cs
      else cur.reverse.asString :: splitWsAux [] cs
    else splitWsAux (c :: cur) cs

/-- Python `s.split()`: the maximal whitespace-free tokens of `s`, in
order (runs of Python whitespace separate tokens, no empty tokens). -/
def pySplit (s : String) : List String :=
  splitWsAux [] s.data

/-- Replace field `k` of a JSON object value (used for the in-place
mutation `merged_data[verse_id]['r'].update(...)`). -/
def jSetField (v : JValue) (k : String) (x : JValue) : JValue :=
  match v with
  | .obj o => .obj (setKey o k x)
  | _ => v

/-- One input file: its name and the outcome of `json.load` on it (an
error message when parsing/reading fails). -/
structure InputFile where
  name : String
  parsed : Except String JValue

/-- Lexicographic order on character lists, by code point. -/
def charsLe : List Char → List Char → Bool
  | [], _ => true
  | _ :: _, [] => false
  | a :: as, b :: bs => if a = b then charsLe as bs else decide (a.toNat < b.toNat)

/-- Lexicographic order on strings, by code point. -/
def nameLe (a b : String) : Bool :=
  charsLe a.data b.data

/-- The sort relation on input files: ordered by filename. -/
def fileLe (a b : InputFile) : Prop :=
  nameLe a.name b.name = true

instance : DecidableRel fileLe :=
  fun a b => instDecidableEqBool (nameLe a.name b.name) true

/-- Line 24: `json_files = sorted(input_path.glob('*.json'))` — the files,
sorted lexicographically by name (Python's sort is stable). -/
def sortFiles (files : List InputFile) : List InputFile :=
  List.insertionSort fileLe files

/-- Lines 44-51: merging one `(verse_id, verse_data)` pair of a parsed
file into the accumulator `merged_data`:

if `verse_id` is already present, and both the new record and the stored
record contain `'r'`, the stored record's `r` dict is updated in place
with the new record's `r` entries; otherwise the pair is inserted as-is
when new, and nothing happens when it duplicates an existing id without
both `r`s. -/
def mergeEntry (m : Obj) (vid : String) (vd : JValue) : Except PyErr Obj :=
  if hasKey m vid then
    match pyContains "r" vd with
    | .error e => .error e
    | .ok false => .ok m
    | .ok true =>
      match pyContains "r" ((lookup? m vid).getD .null) with
      | .error e => .error e
      | .ok false => .ok m
      | .ok true =>
        match pySubscript ((lookup? m vid).getD .null) "r" with
        | .error e => .error e
        | .ok (.obj ro) =>
          match pySubscript vd "r" with
          | .error e => .error e
          | .ok (.obj no) =>
            .ok (setKey m vid
              (jSetField ((lookup? m vid).getD .null) "r" (.obj (dictUpdate ro no))))
          | .ok _ => .error .typeError
        | .ok _ => .error .attrError
  else .ok (setKey m vid vd)

/-- The per-file merge loop over `data.items()`.  An exception raised by
an entry is caught by the `try` at line 39: the accumulator keeps the
entries already merged and the rest of the file is skipped. -/
def mergeEntries (m : Obj) : List (String × JValue) → Obj
  | [] => m
  | (vid, vd) :: rest =>
    match mergeEntry m vid vd with
    | .ok m2 => mergeEntries m2 rest
    | .error _ => m

/-- Lines 36-55: processing one file.  A parse failure skips the file; a
top-level value that is not an object makes `data.items()` raise
`AttributeError`, also caught, so the file is skipped whole. -/
def processFile (m : Obj) (f : InputFile) : Obj :=
  match f.parsed with
  | .error _ => m
  | .ok (.obj entries) => mergeEntries m entries
  | .ok _ => m

/-- The combined mapping built by the merge loop over the sorted files. -/
def mergedOf (files : List InputFile) : Obj :=
  (sortFiles files).foldl processFile []

/-- Line 59: `sum(len(v.get('r', {})) for v in merged_data.values())`.
This runs outside the per-file `try`, so an error here is uncaught. -/
def totalReferences : Obj → Except PyErr Nat
  | [] => .ok 0
  | kv :: rest =>
    match pyGet kv.2 "r" (.obj []) with
    | .error e => .error e
    | .ok r =>
      match pyLen r with
      | .error e => .error e
      | .ok n =>
        match totalReferences rest with
        | .error e => .error e
        | .ok t => .ok (n + t)

/-- Observable outcome of `merge_json_files`: the returned mapping,
whether a write of the output file was attempted, and whether it
succeeded. -/
structure MergeOutcome where
  merged : Obj
  attemptedWrite : Bool
  writeSucceeded : Bool

/-- Lines 12-77: `merge_json_files`.  `writeOk` models whether the
output-file write (the `try` at lines 67-74) succeeds; on failure the
exception is caught and the in-memory mapping is still returned.  With
zero files the function returns the empty mapping before reaching the
save step. -/
def merge_json_files (files : List InputFile) (writeOk : Bool) :
    Except PyErr MergeOutcome :=
  let sorted := sortFiles files
  if sorted.isEmpty then .ok ⟨[], false, false⟩
  else
    let m := sorted.foldl processFile []
    match totalReferences m with
    | .error e => .error e
    | .ok _ => .ok ⟨m, true, writeOk⟩

/-- Increment the per-book counter (`books[book] += 1` after a zero
default). -/
def bump (books : List (String × Nat)) (k : String) : List (String × Nat) :=
  match books with
  | [] => [(k, 1)]
  | (k', c) :: rest => if k' = k then (k', c + 1) :: rest else (k', c) :: bump rest k

/-- Lines 89-94: one verse record's contribution to the book tally:
`verse_ref = verse_data.get('v', '')`, and when truthy,
`book = verse_ref.split()[0]` followed by the counter bump. -/
def tallyStep (books : List (String × Nat)) (vd : JValue) :
    Except PyErr (List (String × Nat)) :=
  match pyGet vd "v" (.str "") with
  | .error e => .error e
  | .ok vref =>
    if pyTruthy vref then
      match vref with
      | .str s =>
        match pySplit s with
        | [] => .error .indexError
        | tok :: _ => .ok (bump books tok)
      | _ => .error .attrError
    else .ok books

/-- The tally loop of `analyze_data` over the mapping's records. -/
def tallyAll (books : List (String × Nat)) : Obj → Except PyErr (List (String × Nat))
  | [] => .ok books
  | kv :: rest =>
    match tallyStep books kv.2 with
    | .error e => .error e
    | .ok books2 => tallyAll books2 rest

/-- Lines 79-100: `analyze_data`.  Returns the per-book tally it builds
(the reporting is print-only); on an empty mapping it returns at once.
Nothing here is inside a `try`, so errors propagate. -/
def analyze_data (m : Obj) : Except PyErr (List (String × Nat)) :=
  if m.isEmpty then .ok []
  else tallyAll [] m

/-- Lines 102-126: the `__main__` block — merge, then analyze the
returned mapping. -/
def runProgram (files : List InputFile) (writeOk : Bool) :
    Except PyErr (MergeOutcome × List (String × Nat)) :=
  match merge_json_files files writeOk with
  | .error e => .error e
  | .ok out =>
    match analyze_data out.merged with
    | .error e => .error e
    | .ok tally => .ok (out, tally)

/-! ### Spec-side helper definitions used to state the claims -/

/-- Whether a file parsed successfully. -/
def fileOk (f : InputFile) : Bool :=
  match f.parsed with
  | .ok _ => true
  | .error _ => false

/-- Whether a file parsed successfully to a top-level JSON object. -/
def fileIsObj (f : InputFile) : Bool :=
  match f.parsed with
  | .ok (.obj _) => true
  | _ => false

/-- The `(verse_id, verse_record)` pairs a file contributes to the merge
loop (none when it failed to parse or its top level is not an object). -/
def fileEntries (f : InputFile) : List (String × JValue) :=
  match f.parsed with
  | .ok (.obj entries) => entries
  | _ => []

/-- All entries of all files, in processing (sorted-filename) order. -/
def allEntries (files : List InputFile) : List (String × JValue) :=
  ((sortFiles files).map fileEntries).flatten

/-- The records seen for a given verse identifier in a list of entries,
in order. -/
def occsIn (entries : List (String × JValue)) (vid : String) : List JValue :=
  (entries.filter (fun kv => kv.1 == vid)).map Prod.snd

/-- The records seen for a given verse identifier across all files, in
processing order. -/
def occurrences (files : List InputFile) (vid : String) : List JValue :=
  occsIn (allEntries files) vid

/-- Whether a verse record (a JSON object) carries an `r` field. -/
def jHasR (v : JValue) : Bool :=
  match v with
  | .obj o => hasKey o "r"
  | _ => false

/-- Folding one later occurrence into an accumulated `r` mapping: a later
record's `r` entries are merged in (later wins per key) when that record
has an `r` object, else nothing. -/
def updR (acc : Obj) (vd : JValue) : Obj :=
  match vd with
  | .obj o =>
    match lookup? o "r" with
    | some (.obj no) => dictUpdate acc no
    | _ => acc
  | _ => acc

/-- The record the merge produces for an identifier from its first
occurrence `cur` and the later occurrences `vs`: when `cur` has an `r`
object, its `r` becomes the left-to-right union of all `r` objects seen;
otherwise `cur` is kept unchanged. -/
def combineCont (cur : JValue) (vs : List JValue) : JValue :=
  match cur with
  | .obj co =>
    match lookup? co "r" with
    | some (.obj r0) => .obj (setKey co "r" (.obj (vs.foldl updR r0)))
    | _ => cur
  | _ => cur

/-- The union of all `r` sub-mappings seen for an identifier across the
files, later files winning per key (what the spec's invariant promises
the merged entry's `r` to be). -/
def rUnionSeen (files : List InputFile) (vid : String) : Obj :=
  (occurrences files vid).foldl updR []

/-- The book a verse record contributes to the tally, when any: the
first whitespace token of a string `v` field. -/
def countedBook (vd : JValue) : Option String :=
  match vd with
  | .obj o =>
    match lookup? o "v" with
    | some (.str s) => (pySplit s).head?
    | _ => none
  | _ => none

/-- The book names contributed by a mapping's records, in order. -/
def booksOf (m : Obj) : List String :=
  m.filterMap (fun kv => countedBook kv.2)

/-- Lookup in a book tally. -/
def natLookup? (l : List (String × Nat)) (k : String) : Option Nat :=
  match l with
  | [] => none
  | (k', c) :: rest => if k' = k then some c else natLookup? rest k

/-! ### Wellformedness of verse records

The script assumes each verse record is a JSON object whose `r` field
(when present) is an object and whose `v` field (when present) is either
a string that is empty or contains a non-whitespace token, or a falsy
value.  Data outside this shape makes the uncaught statistics or
analysis code raise. -/

/-- The `r` field, when present, is an object. -/
def wfR (o : Obj) : Bool :=
  match lookup? o "r" with
  | none => true
  | some (.obj _) => true
  | some _ => false

/-- The `v` field, when present, is a string that is empty or has a
whitespace-delimited token, or a falsy non-string. -/
def wfV (o : Obj) : Bool :=
  match lookup? o "v" with
  | none => true
  | some (.str s) => s.isEmpty || !(pySplit s).isEmpty
  | some x => !pyTruthy x

/-- Merge/statistics-level wellformedness of a verse record. -/
def wfRecordM (v : JValue) : Bool :=
  match v with
  | .obj o => wfR o
  | _ => false

/-- Analyzer-level wellformedness of a verse record. -/
def wfRecordA (v : JValue) : Bool :=
  match v with
  | .obj o => wfV o
  | _ => false

/-- Full wellformedness of a verse record. -/
def wfRecord (v : JValue) : Bool :=
  wfRecordM v && wfRecordA v

/-- All records of a parsed file are wellformed (files that failed to
parse, or whose top level is not an object, contribute nothing and are
unconstrained). -/
def wfFile (f : InputFile) : Bool :=
  (fileEntries f).all (fun kv => wfRecord kv.2)

/-- Merge-level wellformedness of a file. -/
def wfFileM (f : InputFile) : Bool :=
  (fileEntries f).all (fun kv => wfRecordM kv.2)

/-- The total function `mergeEntry` computes on wellformed data (no
exception path). -/
def mergeStep (m : Obj) (vid : String) (vd : JValue) : Obj :=
  match lookup? m vid with
  | none => setKey m vid vd
  | some cur =>
    match cur, vd with
    | .obj co, .obj vo =>
      match lookup? co "r", lookup? vo "r" with
      | some (.obj ro), some (.obj no) =>
        setKey m vid (.obj (setKey co "r" (.obj (dictUpdate ro no))))
      | _, _ => m
    | _, _ => m

/-- Folding `mergeStep` over a list of entries (what the merge loop
computes on wellformed data). -/
def mergeFold (m : Obj) (entries : List (String × JValue)) : Obj :=
  entries.foldl (fun acc kv => mergeStep acc kv.1 kv.2) m

/-! ### Order lemmas for the filename sort -/

theorem charToNat_inj {a b : Char} (h : a.toNat = b.toNat) : a = b :=
  Char.ext (UInt32.ext h)

theorem strData_inj {a b : String} (h : a.data = b.data) : a = b := by
  cases a; cases b; exact congrArg String.mk h

theorem charsLe_total : ∀ a b : List Char, charsLe a b = true ∨ charsLe b a = true
  | [], _ => Or.inl rfl
  | _ :: _, [] => Or.inr rfl
  | a :: as, b :: bs => by
    by_cases hab : a = b
    · subst hab
      rcases charsLe_total as bs with h | h
      · exact Or.inl (by simp [charsLe, h])
      · exact Or.inr (by simp [charsLe, h])
    · have hne : a.toNat ≠ b.toNat := fun h => hab (charToNat_inj h)
      rcases Nat.lt_or_ge a.toNat b.toNat with h | h
      · exact Or.inl (by simp [charsLe, hab]; omega)
      · have hba : b.toNat < a.toNat := Nat.lt_of_le_of_ne h (Ne.symm hne)
        exact Or.inr (by simp [charsLe, Ne.symm hab]; omega)

theorem charsLe_trans : ∀ {a b c : List Char},
    charsLe a b = true → charsLe b c = true → charsLe a c = true
  | [], _, _, _, _ => rfl
  | _ :: _, [], _, h1, _ => by simp [charsLe] at h1
  | _ :: _, _ :: _, [], _, h2 => by simp [charsLe] at h2
  | a :: as, b :: bs, c :: cs, h1, h2 => by
    by_cases hab : a = b <;> by_cases hbc : b = c
    · subst hab; subst hbc
      simp only [charsLe, if_pos rfl] at h1 h2 ⊢
      exact charsLe_trans h1 h2
    · subst hab
      simp only [charsLe, if_pos rfl] at h1
      simp only [charsLe, if_neg hbc, decide_eq_true_eq] at h2
      have hac : a ≠ c := hbc
      simp only [charsLe, if_neg hac, decide_eq_true_eq]
      exact h2
    · subst hbc
      simp only [charsLe, if_neg hab, decide_eq_true_eq] at h1
      simp only [charsLe, if_neg hab, decide_eq_true_eq]
      exact h1
    · simp only [charsLe, if_neg hab, decide_eq_true_eq] at h1
      simp only [charsLe, if_neg hbc, decide_eq_true_eq] at h2
      have hlt : a.toNat < c.toNat := Nat.lt_trans h1 h2
      have hac : a ≠ c := fun he => by subst he; omega
      simp only [charsLe, if_neg hac, decide_eq_true_eq]
      exact hlt

theorem charsLe_antisymm : ∀ {a b : List Char},
    charsLe a b = true → charsLe b a = true → a = b
  | [], [], _, _ => rfl
  | [], _ :: _, _, h2 => by simp [charsLe] at h2
  | _ :: _, [], h1, _ => by simp [charsLe] at h1
  | a :: as, b :: bs, h1, h2 => by
    by_cases hab : a = b
    · subst hab
      simp only [charsLe, if_pos rfl] at h1 h2
      exact congrArg (a :: ·) (charsLe_antisymm h1 h2)
    · simp only [charsLe, if_neg hab, decide_eq_true_eq] at h1
      simp only [charsLe, if_neg (Ne.symm hab), decide_eq_true_eq] at h2
      omega

theorem nameLe_total (a b : String) : nameLe a b = true ∨ nameLe b a = true :=
  charsLe_total a.data b.data

theorem nameLe_trans {a b c : String} (h1 : nameLe a b = true) (h2 : nameLe b c = true) :
    nameLe a c = true :=
  charsLe_trans h1 h2

theorem nameLe_antisymm {a b : String} (h1 : nameLe a b = true) (h2 : nameLe b a = true) :
    a = b :=
  strData_inj (charsLe_antisymm h1 h2)

instance : IsTotal InputFile fileLe :=
  ⟨fun a b => nameLe_total a.name b.name⟩

instance : IsTrans InputFile fileLe :=
  ⟨fun _ _ _ h1 h2 => nameLe_trans h1 h2⟩

/-- Strict version of the file order, used to identify sorted
permutations with pairwise-distinct names. -/
def fileLt (a b : InputFile) : Prop :=
  fileLe a b ∧ a.name ≠ b.name

instance : IsAntisymm InputFile fileLt where
  antisymm _ _ h1 h2 := absurd (nameLe_antisymm h1.1 h2.1) h1.2

theorem sortFiles_perm (files : List InputFile) : List.Perm (sortFiles files) files :=
  List.perm_insertionSort fileLe files

theorem sortFiles_sorted (files : List InputFile) : (sortFiles files).Sorted fileLe :=
  List.sorted_insertionSort fileLe files

theorem sorted_lt_of_sorted_nodup {l : List InputFile} (hs : l.Sorted fileLe)
    (hnd : (l.map InputFile.name).Nodup) : l.Sorted fileLt := by
  have hne : l.Pairwise (fun a b : InputFile => a.name ≠ b.name) :=
    (List.pairwise_map.mp hnd)
  exact hs.and hne

theorem sortFiles_eq_of_perm {files1 files2 : List InputFile}
    (hp : List.Perm files1 files2) (hnd : (files1.map InputFile.name).Nodup) :
    sortFiles files1 = sortFiles files2 := by
  have hperm : List.Perm (sortFiles files1) (sortFiles files2) :=
    ((sortFiles_perm files1).trans hp).trans (sortFiles_perm files2).symm
  have hnd1 : ((sortFiles files1).map InputFile.name).Nodup :=
    (((sortFiles_perm files1).map InputFile.name).nodup_iff).mpr hnd
  have hnd2 : ((sortFiles files2).map InputFile.name).Nodup :=
    ((hperm.map InputFile.name).nodup_iff).mp hnd1
  exact List.eq_of_perm_of_sorted hperm
    (sorted_lt_of_sorted_nodup (sortFiles_sorted files1) hnd1)
    (sorted_lt_of_sorted_nodup (sortFiles_sorted files2) hnd2)

/-! ### Dictionary lemmas -/

theorem lookup?_setKey_self : ∀ (o : Obj) (k : String) (v : JValue),
    lookup? (setKey o k v) k = some v
  | [], k, v => by simp [setKey, lookup?]
  | (k1, v1) :: rest, k, v => by
    by_cases h : k1 = k
    · simp [setKey, h, lookup?]
    · simp only [setKey, if_neg h, lookup?, if_neg h]
      exact lookup?_setKey_self rest k v

theorem lookup?_setKey_ne : ∀ (o : Obj) {k k' : String} (v : JValue), k' ≠ k →
    lookup? (setKey o k v) k' = lookup? o k'
  | [], k, k', v, h => by simp [setKey, lookup?, Ne.symm h]
  | (k1, v1) :: rest, k, k', v, h => by
    by_cases hk : k1 = k
    · subst hk
      simp [setKey, lookup?, Ne.symm h]
    · simp only [setKey, if_neg hk, lookup?]
      by_cases hk' : k1 = k'
      · simp [hk']
      · simp only [if_neg hk']
        exact lookup?_setKey_ne rest v h

theorem setKey_setKey : ∀ (o : Obj) (k : String) (a b : JValue),
    setKey (setKey o k a) k b = setKey o k b
  | [], k, a, b => by simp [setKey]
  | (k1, v1) :: rest, k, a, b => by
    by_cases h : k1 = k
    · simp [setKey, h]
    · simp [setKey, h, setKey_setKey rest k a b]

theorem setKey_lookup_eq : ∀ {o : Obj} {k : String} {v : JValue},
    lookup? o k = some v → setKey o k v = o
  | [], k, v, h => by simp [lookup?] at h
  | (k1, v1) :: rest, k, v, h => by
    by_cases hk : k1 = k
    · subst hk
      simp [lookup?] at h
      subst h
      simp [setKey]
    · simp only [lookup?, if_neg hk] at h
      simp [setKey, hk, setKey_lookup_eq h]

theorem setKey_of_not_has : ∀ {o : Obj} {k : String} (v : JValue),
    hasKey o k = false → setKey o k v = o ++ [(k, v)]
  | [], k, v, _ => by simp [setKey]
  | (k1, v1) :: rest, k, v, h => by
    simp only [hasKey, lookup?] at h
    by_cases hk : k1 = k
    · simp [hk] at h
    · simp only [if_neg hk] at h
      have : hasKey rest k = false := by
        simpa [hasKey] using h
      simp [setKey, hk, setKey_of_not_has v this]

theorem lookup?_append_of_none : ∀ {o : Obj} (o' : Obj) {k : String},
    lookup? o k = none → lookup? (o ++ o') k = lookup? o' k
  | [], o', k, _ => by simp
  | (k1, v1) :: rest, o', k, h => by
    by_cases hk : k1 = k
    · simp [lookup?, hk] at h
    · simp only [lookup?, if_neg hk] at h
      simpa [lookup?, hk] using lookup?_append_of_none o' h

theorem hasKey_iff_mem : ∀ {o : Obj} {k : String}, hasKey o k = true ↔ k ∈ keysOf o
  | [], k => by simp [hasKey, lookup?, keysOf]
  | (k1, v1) :: rest, k => by
    by_cases hk : k1 = k
    · simp [hasKey, lookup?, hk, keysOf]
    · simp only [hasKey, lookup?, if_neg hk, keysOf, List.map_cons, List.mem_cons]
      have hrec := @hasKey_iff_mem rest k
      simp only [hasKey, keysOf] at hrec
      simp [hrec, Ne.symm hk]

theorem lookup?_eq_none_iff {o : Obj} {k : String} :
    lookup? o k = none ↔ ¬ k ∈ keysOf o := by
  rw [← hasKey_iff_mem]
  constructor
  · intro h hk
    simp [hasKey, h] at hk
  · intro h
    cases hl : lookup? o k with
    | none => rfl
    | some v => exact absurd (by simp [hasKey, hl]) h

theorem keysOf_setKey_of_has : ∀ {o : Obj} {k : String} (v : JValue),
    hasKey o k = true → keysOf (setKey o k v) = keysOf o
  | [], k, v, h => by simp [hasKey, lookup?] at h
  | (k1, v1) :: rest, k, v, h => by
    by_cases hk : k1 = k
    · simp [setKey, hk, keysOf]
    · simp only [hasKey, lookup?, if_neg hk] at h
      have : hasKey rest k = true := by simpa [hasKey] using h
      simp only [setKey, if_neg hk, keysOf, List.map_cons, List.cons.injEq]
      have hr := keysOf_setKey_of_has v this
      simp only [keysOf] at hr
      exact ⟨trivial, hr⟩

theorem lookup?_mem : ∀ {o : Obj} {k : String} {v : JValue},
    lookup? o k = some v → (k, v) ∈ o
  | [], k, v, h => by simp [lookup?] at h
  | (k1, v1) :: rest, k, v, h => by
    by_cases hk : k1 = k
    · subst hk
      simp [lookup?] at h
      subst h
      exact List.mem_cons_self (k1, v1) rest
    · simp only [lookup?, if_neg hk] at h
      exact List.mem_cons_of_mem (k1, v1) (lookup?_mem h)

/-! ### Wellformedness inversion and preservation -/

theorem wfRecordM_obj {v : JValue} (h : wfRecordM v = true) :
    ∃ o, v = .obj o ∧ wfR o = true := by
  cases v with
  | obj o => exact ⟨o, rfl, h⟩
  | null => simp [wfRecordM] at h
  | bool b => simp [wfRecordM] at h
  | num n => simp [wfRecordM] at h
  | str s => simp [wfRecordM] at h
  | arr l => simp [wfRecordM] at h

theorem wfR_lookup {o : Obj} {rv : JValue} (h : wfR o = true)
    (hl : lookup? o "r" = some rv) : ∃ ro, rv = .obj ro := by
  unfold wfR at h
  rw [hl] at h
  cases rv with
  | obj ro => exact ⟨ro, rfl⟩
  | null => simp at h
  | bool b => simp at h
  | num n => simp at h
  | str s => simp at h
  | arr l => simp at h

theorem wfRecord_M {v : JValue} (h : wfRecord v = true) : wfRecordM v = true := by
  unfold wfRecord at h
  exact (Bool.and_eq_true_iff.mp h).1

theorem wfRecord_A {v : JValue} (h : wfRecord v = true) : wfRecordA v = true := by
  unfold wfRecord at h
  exact (Bool.and_eq_true_iff.mp h).2

theorem mem_setKey {o : Obj} {k : String} {v : JValue} {p : String × JValue}
    (hp : p ∈ setKey o k v) : p ∈ o ∨ p = (k, v) := by
  induction o with
  | nil =>
    simp [setKey] at hp
    exact Or.inr hp
  | cons kv rest ih =>
    by_cases hk : kv.1 = k
    · simp only [setKey, if_pos hk, List.mem_cons] at hp
      rcases hp with hp | hp
      · exact Or.inr hp
      · exact Or.inl (List.mem_cons_of_mem kv hp)
    · simp only [setKey, if_neg hk, List.mem_cons] at hp
      rcases hp with hp | hp
      · exact Or.inl (by simp [hp])
      · rcases ih hp with h | h
        · exact Or.inl (List.mem_cons_of_mem kv h)
        · exact Or.inr h

/-- The record written by the update branch of the merge is wellformed
whenever the current record is. -/
theorem wfRecord_update {co ro no : Obj}
    (hcur : wfRecord (.obj co) = true) :
    wfRecord (.obj (setKey co "r" (.obj (dictUpdate ro no)))) = true := by
  have hA : wfV co = true := by
    have := wfRecord_A hcur
    simpa [wfRecordA] using this
  have hv : lookup? (setKey co "r" (.obj (dictUpdate ro no))) "v" = lookup? co "v" :=
    lookup?_setKey_ne co _ (by decide)
  simp only [wfRecord, wfRecordM, wfRecordA, wfR, wfV, lookup?_setKey_self, hv]
  simp only [wfV] at hA
  simpa using hA

theorem wfRecordM_update {co ro no : Obj} :
    wfRecordM (.obj (setKey co "r" (.obj (dictUpdate ro no)))) = true := by
  simp only [wfRecordM, wfR, lookup?_setKey_self]

/-- Case equations for `mergeStep`. -/
theorem mergeStep_insert {m : Obj} {vid : String} (vd : JValue)
    (hmv : lookup? m vid = none) : mergeStep m vid vd = setKey m vid vd := by
  simp [mergeStep, hmv]

theorem mergeStep_update {m : Obj} {vid : String} {co vo ro no : Obj}
    (hmv : lookup? m vid = some (.obj co))
    (hro : lookup? co "r" = some (.obj ro))
    (hno : lookup? vo "r" = some (.obj no)) :
    mergeStep m vid (.obj vo) =
      setKey m vid (.obj (setKey co "r" (.obj (dictUpdate ro no)))) := by
  simp [mergeStep, hmv, hro, hno]

theorem mergeStep_skip_curR {m : Obj} {vid : String} {co : Obj} (vo : Obj)
    (hmv : lookup? m vid = some (.obj co))
    (hro : lookup? co "r" = none) : mergeStep m vid (.obj vo) = m := by
  simp [mergeStep, hmv, hro]

theorem mergeStep_skip_newR {m : Obj} {vid : String} {co vo ro : Obj}
    (hmv : lookup? m vid = some (.obj co))
    (hro : lookup? co "r" = some (.obj ro))
    (hno : lookup? vo "r" = none) : mergeStep m vid (.obj vo) = m := by
  simp [mergeStep, hmv, hro, hno]

/-- `mergeStep` preserves merge-level wellformedness of the stored
records. -/
theorem wfM_mergeStep {m : Obj} {vid : String} {vd : JValue}
    (hm : ∀ p ∈ m, wfRecordM p.2 = true) (hvd : wfRecordM vd = true) :
    ∀ p ∈ mergeStep m vid vd, wfRecordM p.2 = true := by
  intro p hp
  obtain ⟨vo, rfl, hwfvo⟩ := wfRecordM_obj hvd
  cases hmv : lookup? m vid with
  | none =>
    rw [mergeStep_insert _ hmv] at hp
    rcases mem_setKey hp with h | h
    · exact hm p h
    · rw [h]
      exact hvd
  | some cur =>
    have hwfc : wfRecordM cur = true := by
      have := hm _ (lookup?_mem hmv)
      simpa using this
    obtain ⟨co, rfl, hwfco⟩ := wfRecordM_obj hwfc
    cases hro : lookup? co "r" with
    | none =>
      rw [mergeStep_skip_curR vo hmv hro] at hp
      exact hm p hp
    | some rc =>
      obtain ⟨ro, rfl⟩ := wfR_lookup hwfco hro
      cases hno : lookup? vo "r" with
      | none =>
        rw [mergeStep_skip_newR hmv hro hno] at hp
        exact hm p hp
      | some rn =>
        obtain ⟨no, rfl⟩ := wfR_lookup hwfvo hno
        rw [mergeStep_update hmv hro hno] at hp
        rcases mem_setKey hp with h | h
        · exact hm p h
        · rw [h]
          exact wfRecordM_update

/-- On wellformed data, `mergeEntry` never raises and computes
`mergeStep`. -/
theorem mergeEntry_eq_step {m : Obj} {vid : String} {vd : JValue}
    (hvd : wfRecordM vd = true)
    (hm : ∀ p ∈ m, wfRecordM p.2 = true) :
    mergeEntry m vid vd = .ok (mergeStep m vid vd) := by
  obtain ⟨vo, rfl, hwfvo⟩ := wfRecordM_obj hvd
  cases hmv : lookup? m vid with
  | none =>
    rw [mergeStep_insert _ hmv]
    simp [mergeEntry, hasKey, hmv]
  | some cur =>
    have hwfc : wfRecordM cur = true := by simpa using hm _ (lookup?_mem hmv)
    obtain ⟨co, rfl, hwfco⟩ := wfRecordM_obj hwfc
    cases hno : lookup? vo "r" with
    | none =>
      cases hro : lookup? co "r" with
      | none =>
        rw [mergeStep_skip_curR vo hmv hro]
        simp [mergeEntry, hasKey, hmv, pyContains, hno]
      | some rc =>
        obtain ⟨ro, rfl⟩ := wfR_lookup hwfco hro
        rw [mergeStep_skip_newR hmv hro hno]
        simp [mergeEntry, hasKey, hmv, pyContains, hno]
    | some rn =>
      obtain ⟨no, rfl⟩ := wfR_lookup hwfvo hno
      cases hro : lookup? co "r" with
      | none =>
        rw [mergeStep_skip_curR vo hmv hro]
        simp [mergeEntry, hasKey, hmv, pyContains, hno, hro]
      | some rc =>
        obtain ⟨ro, rfl⟩ := wfR_lookup hwfco hro
        rw [mergeStep_update hmv hro hno]
        simp [mergeEntry, hasKey, hmv, pyContains, pySubscript, jSetField, hno, hro]

/-- On wellformed data the per-file loop computes the `mergeStep` fold. -/
theorem mergeEntries_eq_fold : ∀ {entries : List (String × JValue)} {m : Obj},
    (∀ p ∈ m, wfRecordM p.2 = true) → (∀ p ∈ entries, wfRecordM p.2 = true) →
    mergeEntries m entries = mergeFold m entries
  | [], m, _, _ => rfl
  | (vid, vd) :: rest, m, hm, he => by
    have hvd : wfRecordM vd = true := by
      simpa using he (vid, vd) (List.mem_cons_self _ _)
    have hm2 : ∀ p ∈ mergeStep m vid vd, wfRecordM p.2 = true :=
      wfM_mergeStep hm hvd
    have he2 : ∀ p ∈ rest, wfRecordM p.2 = true :=
      fun p hp => he p (List.mem_cons_of_mem _ hp)
    calc mergeEntries m ((vid, vd) :: rest)
        = mergeEntries (mergeStep m vid vd) rest := by
          rw [mergeEntries, mergeEntry_eq_step hvd hm]
      _ = mergeFold (mergeStep m vid vd) rest := mergeEntries_eq_fold hm2 he2
      _ = mergeFold m ((vid, vd) :: rest) := rfl

/-- `mergeStep` either sets the merged key or leaves the mapping
unchanged. -/
theorem mergeStep_cases (m : Obj) (vid : String) (vd : JValue) :
    (∃ x, mergeStep m vid vd = setKey m vid x) ∨ mergeStep m vid vd = m := by
  cases hmv : lookup? m vid with
  | none => exact Or.inl ⟨vd, mergeStep_insert vd hmv⟩
  | some cur =>
    cases cur with
    | obj co =>
      cases vd with
      | obj vo =>
        cases hro : lookup? co "r" with
        | none => exact Or.inr (by simp [mergeStep, hmv, hro])
        | some rc =>
          cases hno : lookup? vo "r" with
          | none => exact Or.inr (by cases rc <;> simp [mergeStep, hmv, hro, hno])
          | some rn =>
            cases rc with
            | obj ro =>
              cases rn with
              | obj no =>
                exact Or.inl ⟨.obj (setKey co "r" (.obj (dictUpdate ro no))),
                  by simp [mergeStep, hmv, hro, hno]⟩
              | null => exact Or.inr (by simp [mergeStep, hmv, hro, hno])
              | bool b => exact Or.inr (by simp [mergeStep, hmv, hro, hno])
              | num n => exact Or.inr (by simp [mergeStep, hmv, hro, hno])
              | str s => exact Or.inr (by simp [mergeStep, hmv, hro, hno])
              | arr l => exact Or.inr (by simp [mergeStep, hmv, hro, hno])
            | null => exact Or.inr (by simp [mergeStep, hmv, hro, hno])
            | bool b => exact Or.inr (by simp [mergeStep, hmv, hro, hno])
            | num n => exact Or.inr (by simp [mergeStep, hmv, hro, hno])
            | str s => exact Or.inr (by simp [mergeStep, hmv, hro, hno])
            | arr l => exact Or.inr (by simp [mergeStep, hmv, hro, hno])
      | null => exact Or.inr (by simp [mergeStep, hmv])
      | bool b => exact Or.inr (by simp [mergeStep, hmv])
      | num n => exact Or.inr (by simp [mergeStep, hmv])
      | str s => exact Or.inr (by simp [mergeStep, hmv])
      | arr l => exact Or.inr (by simp [mergeStep, hmv])
    | null => exact Or.inr (by simp [mergeStep, hmv])
    | bool b => exact Or.inr (by simp [mergeStep, hmv])
    | num n => exact Or.inr (by simp [mergeStep, hmv])
    | str s => exact Or.inr (by simp [mergeStep, hmv])
    | arr l => exact Or.inr (by simp [mergeStep, hmv])

theorem mergeStep_lookup_ne {m : Obj} {vid : String} {vd : JValue} {k : String}
    (h : k ≠ vid) : lookup? (mergeStep m vid vd) k = lookup? m k := by
  rcases mergeStep_cases m vid vd with ⟨x, hx⟩ | hx
  · rw [hx, lookup?_setKey_ne m x h]
  · rw [hx]

theorem combineCont_nil (cur : JValue) : combineCont cur [] = cur := by
  cases cur with
  | obj co =>
    simp only [combineCont]
    cases hro : lookup? co "r" with
    | none => rfl
    | some rc =>
      cases rc with
      | obj r0 =>
        simp only [List.foldl_nil]
        exact congrArg JValue.obj (setKey_lookup_eq hro)
      | null => rfl
      | bool b => rfl
      | num n => rfl
      | str s => rfl
      | arr l => rfl
  | null => rfl
  | bool b => rfl
  | num n => rfl
  | str s => rfl
  | arr l => rfl

theorem combineCont_cons_update {co vo ro no : Obj} {vs : List JValue}
    (hro : lookup? co "r" = some (.obj ro))
    (hno : lookup? vo "r" = some (.obj no)) :
    combineCont (.obj co) (.obj vo :: vs) =
      combineCont (.obj (setKey co "r" (.obj (dictUpdate ro no)))) vs := by
  have hupd : updR ro (.obj vo) = dictUpdate ro no := by simp [updR, hno]
  simp only [combineCont, hro, lookup?_setKey_self, List.foldl_cons, hupd,
    setKey_setKey]

theorem combineCont_cons_skip {cur v : JValue} {vs : List JValue}
    (h : ∀ acc : Obj, updR acc v = acc) :
    combineCont cur (v :: vs) = combineCont cur vs := by
  cases cur with
  | obj co =>
    simp only [combineCont]
    cases hro : lookup? co "r" with
    | none => rfl
    | some rc =>
      cases rc with
      | obj r0 => simp only [List.foldl_cons, h r0]
      | null => rfl
      | bool b => rfl
      | num n => rfl
      | str s => rfl
      | arr l => rfl
  | null => rfl
  | bool b => rfl
  | num n => rfl
  | str s => rfl
  | arr l => rfl

theorem occsIn_cons_self (k0 : String) (v0 : JValue) (rest : List (String × JValue)) :
    occsIn ((k0, v0) :: rest) k0 = v0 :: occsIn rest k0 := by
  simp [occsIn, List.filter_cons]

theorem occsIn_cons_ne {k0 vid : String} (v0 : JValue) (rest : List (String × JValue))
    (h : k0 ≠ vid) : occsIn ((k0, v0) :: rest) vid = occsIn rest vid := by
  simp [occsIn, List.filter_cons, h]

/-- Central characterization of the merge loop: the merged record for an
identifier is `combineCont` of its first occurrence and the later ones. -/
theorem mergeFold_lookup : ∀ {entries : List (String × JValue)} {m : Obj}
    {vid : String}, (∀ p ∈ m, wfRecordM p.2 = true) →
    (∀ p ∈ entries, wfRecordM p.2 = true) →
    lookup? (mergeFold m entries) vid =
      match lookup? m vid with
      | some cur => some (combineCont cur (occsIn entries vid))
      | none =>
        match occsIn entries vid with
        | [] => none
        | v0 :: vs => some (combineCont v0 vs)
  | [], m, vid, _, _ => by
    cases hmv : lookup? m vid with
    | none => simp [mergeFold, occsIn, hmv]
    | some cur => simp [mergeFold, occsIn, hmv, combineCont_nil]
  | (k0, v0) :: rest, m, vid, hm, he => by
    have hv0 : wfRecordM v0 = true := by
      simpa using he (k0, v0) (List.mem_cons_self _ _)
    have hm2 : ∀ p ∈ mergeStep m k0 v0, wfRecordM p.2 = true :=
      wfM_mergeStep hm hv0
    have he2 : ∀ p ∈ rest, wfRecordM p.2 = true :=
      fun p hp => he p (List.mem_cons_of_mem _ hp)
    have hfold : mergeFold m ((k0, v0) :: rest) = mergeFold (mergeStep m k0 v0) rest := rfl
    rw [hfold, mergeFold_lookup hm2 he2]
    by_cases hk : k0 = vid
    · subst hk
      obtain ⟨vo, rfl, hwfvo⟩ := wfRecordM_obj hv0
      rw [occsIn_cons_self]
      cases hmv : lookup? m k0 with
      | none =>
        rw [mergeStep_insert _ hmv, lookup?_setKey_self]
      | some cur =>
        have hwfc : wfRecordM cur = true := by simpa using hm _ (lookup?_mem hmv)
        obtain ⟨co, rfl, hwfco⟩ := wfRecordM_obj hwfc
        cases hro : lookup? co "r" with
        | none =>
          rw [mergeStep_skip_curR vo hmv hro, hmv]
          show some (combineCont (JValue.obj co) (occsIn rest k0)) =
            some (combineCont (JValue.obj co) (JValue.obj vo :: occsIn rest k0))
          exact congrArg some (by simp only [combineCont, hro])
        | some rc =>
          obtain ⟨ro, rfl⟩ := wfR_lookup hwfco hro
          cases hno : lookup? vo "r" with
          | none =>
            rw [mergeStep_skip_newR hmv hro hno, hmv]
            show some (combineCont (JValue.obj co) (occsIn rest k0)) =
              some (combineCont (JValue.obj co) (JValue.obj vo :: occsIn rest k0))
            exact congrArg some (combineCont_cons_skip (fun acc => by simp [updR, hno])).symm
          | some rn =>
            obtain ⟨no, rfl⟩ := wfR_lookup hwfvo hno
            rw [mergeStep_update hmv hro hno, lookup?_setKey_self]
            show some (combineCont (JValue.obj (setKey co "r"
                (JValue.obj (dictUpdate ro no)))) (occsIn rest k0)) =
              some (combineCont (JValue.obj co) (JValue.obj vo :: occsIn rest k0))
            exact congrArg some (combineCont_cons_update hro hno).symm
    · rw [occsIn_cons_ne v0 rest hk, mergeStep_lookup_ne (Ne.symm hk)]

/-! ### From the per-file loop to the entry fold -/

theorem wfFileM_entries {f : InputFile} (hwf : wfFileM f = true) :
    ∀ p ∈ fileEntries f, wfRecordM p.2 = true := by
  intro p hp
  unfold wfFileM at hwf
  exact List.all_eq_true.mp hwf p hp

theorem wfFile_entries {f : InputFile} (hwf : wfFile f = true) :
    ∀ p ∈ fileEntries f, wfRecord p.2 = true := by
  intro p hp
  unfold wfFile at hwf
  exact List.all_eq_true.mp hwf p hp

theorem wfFile_fileM {f : InputFile} (hwf : wfFile f = true) : wfFileM f = true := by
  unfold wfFileM
  exact List.all_eq_true.mpr fun p hp => wfRecord_M (wfFile_entries hwf p hp)

theorem processFile_eq {f : InputFile} {m : Obj}
    (hm : ∀ p ∈ m, wfRecordM p.2 = true)
    (hwf : wfFileM f = true) :
    processFile m f = mergeFold m (fileEntries f) := by
  have he := wfFileM_entries hwf
  unfold processFile fileEntries
  unfold fileEntries at he
  cases hp : f.parsed with
  | error e => rfl
  | ok v =>
    rw [hp] at he
    cases v with
    | obj entries => exact mergeEntries_eq_fold hm he
    | null => rfl
    | bool b => rfl
    | num n => rfl
    | str str => rfl
    | arr l => rfl

theorem wfM_mergeFold : ∀ {entries : List (String × JValue)} {m : Obj},
    (∀ p ∈ m, wfRecordM p.2 = true) → (∀ p ∈ entries, wfRecordM p.2 = true) →
    ∀ p ∈ mergeFold m entries, wfRecordM p.2 = true
  | [], _, hm, _ => hm
  | (vid, vd) :: rest, m, hm, he => by
    have hvd : wfRecordM vd = true := by
      simpa using he (vid, vd) (List.mem_cons_self _ _)
    exact @wfM_mergeFold rest (mergeStep m vid vd) (wfM_mergeStep hm hvd)
      (fun p hp => he p (List.mem_cons_of_mem _ hp))

theorem foldl_processFile : ∀ {l : List InputFile} {m : Obj},
    (∀ p ∈ m, wfRecordM p.2 = true) → (∀ f ∈ l, wfFileM f = true) →
    l.foldl processFile m = mergeFold m ((l.map fileEntries).flatten)
  | [], m, _, _ => rfl
  | f :: fs, m, hm, hwf => by
    have hwff : wfFileM f = true := hwf f (List.mem_cons_self _ _)
    have hstep : processFile m f = mergeFold m (fileEntries f) := processFile_eq hm hwff
    have hm2 : ∀ p ∈ mergeFold m (fileEntries f), wfRecordM p.2 = true :=
      wfM_mergeFold hm (wfFileM_entries hwff)
    calc (f :: fs).foldl processFile m
        = fs.foldl processFile (processFile m f) := rfl
      _ = fs.foldl processFile (mergeFold m (fileEntries f)) := by rw [hstep]
      _ = mergeFold (mergeFold m (fileEntries f)) ((fs.map fileEntries).flatten) :=
          foldl_processFile hm2 (fun g hg => hwf g (List.mem_cons_of_mem _ hg))
      _ = mergeFold m (((f :: fs).map fileEntries).flatten) := by
          simp [mergeFold, List.foldl_append]

theorem mergedOf_eq {files : List InputFile}
    (hwf : ∀ f ∈ files, wfFileM f = true) :
    mergedOf files = mergeFold [] (allEntries files) := by
  unfold mergedOf allEntries
  exact foldl_processFile (by simp)
    (fun f hf => hwf f ((sortFiles_perm files).mem_iff.mp hf))

theorem wfM_allEntries {files : List InputFile}
    (hwf : ∀ f ∈ files, wfFileM f = true) :
    ∀ p ∈ allEntries files, wfRecordM p.2 = true := by
  intro p hp
  unfold allEntries at hp
  rw [List.mem_flatten] at hp
  obtain ⟨l, hl, hpl⟩ := hp
  rw [List.mem_map] at hl
  obtain ⟨f, hf, rfl⟩ := hl
  exact wfFileM_entries (hwf f ((sortFiles_perm files).mem_iff.mp hf)) p hpl

/-- The merged record for each identifier, over whole files. -/
theorem merged_lookup {files : List InputFile} {vid : String}
    (hwf : ∀ f ∈ files, wfFileM f = true) :
    lookup? (mergedOf files) vid =
      match occurrences files vid with
      | [] => none
      | v0 :: vs => some (combineCont v0 vs) := by
  rw [mergedOf_eq hwf, mergeFold_lookup (by simp) (wfM_allEntries hwf)]
  rfl

/-! ### Key multiplicity in the merged mapping -/

theorem nodup_keys_mergeStep {m : Obj} {vid : String} {vd : JValue}
    (h : (keysOf m).Nodup) : (keysOf (mergeStep m vid vd)).Nodup := by
  rcases mergeStep_cases m vid vd with ⟨x, hx⟩ | hx
  · rw [hx]
    cases hhas : hasKey m vid with
    | true => rw [keysOf_setKey_of_has x hhas]; exact h
    | false =>
      rw [setKey_of_not_has x hhas]
      have hkeys : keysOf (m ++ [(vid, x)]) = keysOf m ++ [vid] := by
        simp [keysOf]
      rw [hkeys]
      have hnm : vid ∉ keysOf m := by
        intro hmem
        rw [← hasKey_iff_mem] at hmem
        simp [hhas] at hmem
      simp [List.nodup_append, h, hnm]
  · rw [hx]
    exact h

theorem nodup_keys_mergeFold : ∀ {entries : List (String × JValue)} {m : Obj},
    (keysOf m).Nodup → (keysOf (mergeFold m entries)).Nodup
  | [], _, h => h
  | (vid, vd) :: rest, m, h =>
    @nodup_keys_mergeFold rest (mergeStep m vid vd) (nodup_keys_mergeStep h)

/-! ### Disjoint inputs concatenate -/

theorem lookup?_eq_none_of_not_has {m : Obj} {k : String}
    (h : hasKey m k = false) : lookup? m k = none := by
  cases hl : lookup? m k with
  | none => rfl
  | some v =>
    unfold hasKey at h
    rw [hl] at h
    simp at h

theorem mergeFold_of_fresh : ∀ {entries : List (String × JValue)} {m : Obj},
    (keysOf m ++ keysOf entries).Nodup → mergeFold m entries = m ++ entries
  | [], m, _ => by simp [mergeFold]
  | (k0, v0) :: rest, m, h => by
    have hk0 : ¬ k0 ∈ keysOf m := by
      intro hmem
      have hd := (List.nodup_append.mp h).2.2
      exact hd hmem (by simp [keysOf])
    have hfresh : hasKey m k0 = false := by
      cases hh : hasKey m k0 with
      | false => rfl
      | true => exact absurd (hasKey_iff_mem.mp hh) hk0
    have hstep : mergeStep m k0 v0 = m ++ [(k0, v0)] := by
      rw [mergeStep_insert v0 (lookup?_eq_none_of_not_has hfresh),
        setKey_of_not_has v0 hfresh]
    have hrec : mergeFold (m ++ [(k0, v0)]) rest = (m ++ [(k0, v0)]) ++ rest := by
      apply mergeFold_of_fresh
      have hkeys : keysOf (m ++ [(k0, v0)]) ++ keysOf rest =
          keysOf m ++ keysOf ((k0, v0) :: rest) := by
        simp [keysOf]
      rw [hkeys]
      exact h
    calc mergeFold m ((k0, v0) :: rest)
        = mergeFold (mergeStep m k0 v0) rest := rfl
      _ = mergeFold (m ++ [(k0, v0)]) rest := by rw [hstep]
      _ = (m ++ [(k0, v0)]) ++ rest := hrec
      _ = m ++ ((k0, v0) :: rest) := by simp

/-! ### The statistics line never raises on wellformed data -/

theorem totalReferences_ok : ∀ {m : Obj},
    (∀ p ∈ m, wfRecordM p.2 = true) → ∃ n, totalReferences m = .ok n
  | [], _ => ⟨0, rfl⟩
  | (k0, v0) :: rest, hm => by
    have h0 : wfRecordM v0 = true := by
      simpa using hm _ (List.mem_cons_self _ _)
    obtain ⟨o, rfl, hwfR⟩ := wfRecordM_obj h0
    obtain ⟨n, hn⟩ := totalReferences_ok
      (fun p hp => hm p (List.mem_cons_of_mem _ hp))
    cases hro : lookup? o "r" with
    | none =>
      exact ⟨0 + n, by simp [totalReferences, pyGet, hro, pyLen, hn]⟩
    | some rc =>
      obtain ⟨ro, rfl⟩ := wfR_lookup hwfR hro
      exact ⟨ro.length + n, by simp [totalReferences, pyGet, hro, pyLen, hn]⟩

/-! ### Full wellformedness is preserved by the merge -/

theorem wf_mergeStep {m : Obj} {vid : String} {vd : JValue}
    (hm : ∀ p ∈ m, wfRecord p.2 = true) (hvd : wfRecord vd = true) :
    ∀ p ∈ mergeStep m vid vd, wfRecord p.2 = true := by
  intro p hp
  obtain ⟨vo, hvo, hwfvo⟩ := wfRecordM_obj (wfRecord_M hvd)
  subst hvo
  cases hmv : lookup? m vid with
  | none =>
    rw [mergeStep_insert _ hmv] at hp
    rcases mem_setKey hp with h | h
    · exact hm p h
    · rw [h]
      exact hvd
  | some cur =>
    have hwfc : wfRecord cur = true := by
      have := hm _ (lookup?_mem hmv)
      simpa using this
    obtain ⟨co, hco, hwfco⟩ := wfRecordM_obj (wfRecord_M hwfc)
    subst hco
    cases hro : lookup? co "r" with
    | none =>
      rw [mergeStep_skip_curR vo hmv hro] at hp
      exact hm p hp
    | some rc =>
      obtain ⟨ro, rfl⟩ := wfR_lookup hwfco hro
      cases hno : lookup? vo "r" with
      | none =>
        rw [mergeStep_skip_newR hmv hro hno] at hp
        exact hm p hp
      | some rn =>
        obtain ⟨no, rfl⟩ := wfR_lookup hwfvo hno
        rw [mergeStep_update hmv hro hno] at hp
        rcases mem_setKey hp with h | h
        · exact hm p h
        · rw [h]
          exact wfRecord_update hwfc

theorem wf_mergeFold : ∀ {entries : List (String × JValue)} {m : Obj},
    (∀ p ∈ m, wfRecord p.2 = true) → (∀ p ∈ entries, wfRecord p.2 = true) →
    ∀ p ∈ mergeFold m entries, wfRecord p.2 = true
  | [], _, hm, _ => hm
  | (vid, vd) :: rest, m, hm, he => by
    have hvd : wfRecord vd = true := by
      simpa using he (vid, vd) (List.mem_cons_self _ _)
    exact @wf_mergeFold rest (mergeStep m vid vd) (wf_mergeStep hm hvd)
      (fun p hp => he p (List.mem_cons_of_mem _ hp))

theorem wf_allEntries {files : List InputFile}
    (hwf : ∀ f ∈ files, wfFile f = true) :
    ∀ p ∈ allEntries files, wfRecord p.2 = true := by
  intro p hp
  unfold allEntries at hp
  rw [List.mem_flatten] at hp
  obtain ⟨l, hl, hpl⟩ := hp
  rw [List.mem_map] at hl
  obtain ⟨f, hf, rfl⟩ := hl
  exact wfFile_entries (hwf f ((sortFiles_perm files).mem_iff.mp hf)) p hpl

theorem wf_mergedOf {files : List InputFile}
    (hwf : ∀ f ∈ files, wfFile f = true) :
    ∀ p ∈ mergedOf files, wfRecord p.2 = true := by
  rw [mergedOf_eq (fun f hf => wfFile_fileM (hwf f hf))]
  exact wf_mergeFold (by simp) (wf_allEntries hwf)

/-! ### Analyzer lemmas -/

theorem wfRecordA_obj {v : JValue} (h : wfRecordA v = true) :
    ∃ o, v = .obj o ∧ wfV o = true := by
  cases v with
  | obj o => exact ⟨o, rfl, h⟩
  | null => simp [wfRecordA] at h
  | bool b => simp [wfRecordA] at h
  | num n => simp [wfRecordA] at h
  | str s => simp [wfRecordA] at h
  | arr l => simp [wfRecordA] at h

theorem wfRecord_of_parts {v : JValue} (h1 : wfRecordM v = true)
    (h2 : wfRecordA v = true) : wfRecord v = true := by
  unfold wfRecord
  rw [h1, h2]
  rfl

theorem tallyStep_eq {books : List (String × Nat)} {vd : JValue}
    (hwf : wfRecordA vd = true) :
    tallyStep books vd = .ok (match countedBook vd with
      | some b => bump books b
      | none => books) := by
  obtain ⟨o, rfl, hwfV⟩ := wfRecordA_obj hwf
  unfold wfV at hwfV
  have hemp : "".isEmpty = true := rfl
  cases hv : lookup? o "v" with
  | none => simp [tallyStep, pyGet, hv, pyTruthy, countedBook, hemp]
  | some x =>
    rw [hv] at hwfV
    cases x with
    | str s =>
      by_cases hs : s.isEmpty
      · have hs0 : s = "" := (String.isEmpty_iff s).mp hs
        subst hs0
        simp [tallyStep, pyGet, hv, pyTruthy, countedBook, pySplit, splitWsAux, hemp]
      · have htok : (pySplit s).isEmpty = false := by
          rcases Bool.or_eq_true_iff.mp hwfV with h | h
          · exact absurd h (by simpa using hs)
          · simpa using h
        cases hsp : pySplit s with
        | nil => simp [hsp] at htok
        | cons tok toks =>
          have hstruthy : pyTruthy (.str s) = true := by
            simp [pyTruthy, hs]
          simp [tallyStep, pyGet, hv, hstruthy, hsp, countedBook]
    | null =>
      have : pyTruthy JValue.null = false := rfl
      simp [tallyStep, pyGet, hv, this, countedBook]
    | bool b =>
      have hb : pyTruthy (JValue.bool b) = false := by simpa using hwfV
      simp [tallyStep, pyGet, hv, hb, countedBook]
    | num n =>
      have hb : pyTruthy (JValue.num n) = false := by simpa using hwfV
      simp [tallyStep, pyGet, hv, hb, countedBook]
    | arr l =>
      have hb : pyTruthy (JValue.arr l) = false := by simpa using hwfV
      simp [tallyStep, pyGet, hv, hb, countedBook]
    | obj o2 =>
      have hb : pyTruthy (JValue.obj o2) = false := by simpa using hwfV
      simp [tallyStep, pyGet, hv, hb, countedBook]

theorem booksOf_cons (k0 : String) (v0 : JValue) (rest : Obj) :
    booksOf ((k0, v0) :: rest) =
      match countedBook v0 with
      | some b => b :: booksOf rest
      | none => booksOf rest := by
  cases hc : countedBook v0 <;> simp [booksOf, List.filterMap_cons, hc]

theorem tallyAll_eq : ∀ {m : Obj} {books : List (String × Nat)},
    (∀ p ∈ m, wfRecordA p.2 = true) →
    tallyAll books m = .ok ((booksOf m).foldl bump books)
  | [], books, _ => by simp [tallyAll, booksOf]
  | (k0, v0) :: rest, books, hm => by
    have h0 : wfRecordA v0 = true := by
      simpa using hm _ (List.mem_cons_self _ _)
    have hmrest : ∀ p ∈ rest, wfRecordA p.2 = true :=
      fun p hp => hm p (List.mem_cons_of_mem _ hp)
    rw [tallyAll, tallyStep_eq h0, booksOf_cons]
    cases hc : countedBook v0 with
    | none =>
      show tallyAll books rest = _
      rw [@tallyAll_eq rest books hmrest]
    | some b =>
      show tallyAll (bump books b) rest = _
      rw [@tallyAll_eq rest (bump books b) hmrest]
      rfl

theorem analyze_data_eq {m : Obj} (hm : ∀ p ∈ m, wfRecordA p.2 = true) :
    analyze_data m = .ok ((booksOf m).foldl bump []) := by
  unfold analyze_data
  cases m with
  | nil => simp [booksOf]
  | cons kv rest =>
    rw [if_neg (by simp)]
    exact tallyAll_eq hm

theorem natLookup?_bump_self : ∀ (l : List (String × Nat)) (k : String),
    natLookup? (bump l k) k = some ((natLookup? l k).getD 0 + 1)
  | [], k => by simp [bump, natLookup?]
  | (k1, c) :: rest, k => by
    by_cases h : k1 = k
    · simp [bump, h, natLookup?]
    · simp only [bump, if_neg h, natLookup?, if_neg h]
      exact natLookup?_bump_self rest k

theorem natLookup?_bump_ne : ∀ (l : List (String × Nat)) {k k' : String}, k' ≠ k →
    natLookup? (bump l k) k' = natLookup? l k'
  | [], k, k', h => by simp [bump, natLookup?, Ne.symm h]
  | (k1, c) :: rest, k, k', h => by
    by_cases h1 : k1 = k
    · subst h1
      simp [bump, natLookup?, Ne.symm h]
    · by_cases h2 : k1 = k'
      · simp [bump, h1, natLookup?, h2, h]
      · simp only [bump, if_neg h1, natLookup?, if_neg h2]
        exact natLookup?_bump_ne rest h

theorem natLookup?_foldl_bump : ∀ (bs : List String) (l : List (String × Nat))
    (b : String), natLookup? (bs.foldl bump l) b =
      match natLookup? l b with
      | some c => some (c + bs.count b)
      | none => if bs.count b = 0 then none else some (bs.count b)
  | [], l, b => by cases h : natLookup? l b <;> simp [h]
  | b0 :: bs, l, b => by
    rw [List.foldl_cons, natLookup?_foldl_bump bs (bump l b0) b]
    by_cases hb : b0 = b
    · subst hb
      rw [natLookup?_bump_self]
      cases h : natLookup? l b0 with
      | none =>
        have hne : (b0 :: bs).count b0 ≠ 0 := by simp [List.count_cons]
        simp only [h, Option.getD_none, List.count_cons, hne, if_neg hne]
        simp
        omega
      | some c =>
        simp only [h, Option.getD_some, List.count_cons]
        simp
        omega
    · rw [natLookup?_bump_ne l (Ne.symm hb)]
      have hcnt : (b0 :: bs).count b = bs.count b := by
        simp [List.count_cons, hb]
      rw [hcnt]

/-! ### The whole pipeline on wellformed data -/

theorem wfM_mergedOf {files : List InputFile}
    (hwf : ∀ f ∈ files, wfFileM f = true) :
    ∀ p ∈ mergedOf files, wfRecordM p.2 = true := by
  rw [mergedOf_eq hwf]
  exact wfM_mergeFold (by simp) (wfM_allEntries hwf)

theorem merge_json_files_ok {files : List InputFile} (w : Bool)
    (hwf : ∀ f ∈ files, wfFileM f = true) :
    ∃ out, merge_json_files files w = .ok out ∧ out.merged = mergedOf files := by
  by_cases hs : (sortFiles files).isEmpty = true
  · refine ⟨⟨[], false, false⟩, ?_, ?_⟩
    · simp [merge_json_files, hs]
    · have h0 : sortFiles files = [] := by simpa using hs
      simp [mergedOf, h0]
  · obtain ⟨n, hn⟩ := totalReferences_ok (wfM_mergedOf hwf)
    have hs' : (sortFiles files).isEmpty = false := by simpa using hs
    unfold mergedOf at hn
    refine ⟨⟨mergedOf files, true, w⟩, ?_, rfl⟩
    simp [merge_json_files, hs', hn, mergedOf]

theorem runProgram_ok {files : List InputFile} (w : Bool)
    (hwf : files.all wfFile = true) :
    ∃ out tally, runProgram files w = .ok (out, tally) := by
  have hwfL : ∀ f ∈ files, wfFile f = true := List.all_eq_true.mp hwf
  have hwfM : ∀ f ∈ files, wfFileM f = true := fun f hf => wfFile_fileM (hwfL f hf)
  obtain ⟨out, hmerge, hm⟩ := merge_json_files_ok w hwfM
  have hA : ∀ p ∈ out.merged, wfRecordA p.2 = true := by
    rw [hm]
    exact fun p hp => wfRecord_A (wf_mergedOf hwfL p hp)
  refine ⟨out, (booksOf out.merged).foldl bump [], ?_⟩
  unfold runProgram
  rw [hmerge]
  show (match analyze_data out.merged with
    | Except.error e => Except.error e
    | Except.ok tally => Except.ok (out, tally)) = _
  rw [analyze_data_eq hA]

/-! ### Skipping failed files -/

theorem processFile_error {m : Obj} {f : InputFile} {e : String}
    (hp : f.parsed = .error e) : processFile m f = m := by
  simp [processFile, hp]

theorem foldl_processFile_filter : ∀ (l : List InputFile) (m : Obj),
    l.foldl processFile m = (l.filter fileOk).foldl processFile m
  | [], _ => rfl
  | f :: fs, m => by
    cases hp : f.parsed with
    | ok v =>
      have hok : fileOk f = true := by simp [fileOk, hp]
      rw [List.filter_cons_of_pos hok]
      show fs.foldl processFile (processFile m f) =
        (fs.filter fileOk).foldl processFile (processFile m f)
      exact foldl_processFile_filter fs (processFile m f)
    | error e =>
      have hbad : ¬ fileOk f = true := by simp [fileOk, hp]
      rw [List.filter_cons_of_neg hbad]
      show fs.foldl processFile (processFile m f) =
        (fs.filter fileOk).foldl processFile m
      rw [processFile_error hp]
      exact foldl_processFile_filter fs m

theorem sortFiles_filter_comm (p : InputFile → Bool) {files : List InputFile}
    (hnd : (files.map InputFile.name).Nodup) :
    (sortFiles files).filter p = sortFiles (files.filter p) := by
  have hperm : List.Perm ((sortFiles files).filter p) (sortFiles (files.filter p)) :=
    ((sortFiles_perm files).filter p).trans (sortFiles_perm (files.filter p)).symm
  have hnd1 : ((sortFiles files).map InputFile.name).Nodup :=
    (((sortFiles_perm files).map InputFile.name).nodup_iff).mpr hnd
  have hndf : (((sortFiles files).filter p).map InputFile.name).Nodup :=
    ((List.filter_sublist (sortFiles files)).map InputFile.name).nodup hnd1
  have hndf2 : ((sortFiles (files.filter p)).map InputFile.name).Nodup :=
    ((hperm.map InputFile.name).nodup_iff).mp hndf
  have hs1 : ((sortFiles files).filter p).Sorted fileLe :=
    (sortFiles_sorted files).filter p
  exact List.eq_of_perm_of_sorted hperm
    (sorted_lt_of_sorted_nodup hs1 hndf)
    (sorted_lt_of_sorted_nodup (sortFiles_sorted (files.filter p)) hndf2)

theorem mergedOf_filter_fileOk {files : List InputFile}
    (hnd : (files.map InputFile.name).Nodup) :
    mergedOf files = mergedOf (files.filter fileOk) := by
  unfold mergedOf
  rw [foldl_processFile_filter (sortFiles files) [],
    sortFiles_filter_comm fileOk hnd]

/-! ### The write outcome does not affect the returned mapping -/

theorem merge_json_files_merged_indep (files : List InputFile) (w1 w2 : Bool) :
    (merge_json_files files w1).map MergeOutcome.merged =
      (merge_json_files files w2).map MergeOutcome.merged := by
  unfold merge_json_files
  by_cases hs : (sortFiles files).isEmpty = true
  · simp [hs]
  · have hs' : (sortFiles files).isEmpty = false := by simpa using hs
    simp only [hs', Bool.false_eq_true, if_false]
    cases totalReferences ((sortFiles files).foldl processFile []) <;>
      simp [Except.map]

/-! ### Helper facts about occurrences -/

theorem wf_occurrences {files : List InputFile} {vid : String}
    (hwf : ∀ f ∈ files, wfFile f = true) :
    ∀ v ∈ occurrences files vid, wfRecord v = true := by
  intro v hv
  unfold occurrences occsIn at hv
  rw [List.mem_map] at hv
  obtain ⟨p, hp, rfl⟩ := hv
  exact wf_allEntries hwf p (List.mem_of_mem_filter hp)

/-! ### Concrete inputs used by the witnesses and counterexamples -/

def sampleA : InputFile :=
  ⟨"a.json", .ok (.obj [("GEN.1.1",
    .obj [("v", .str "Genesis 1:1"), ("r", .obj [("x", .num 1)])])])⟩

def sampleC : InputFile :=
  ⟨"c.json", .ok (.obj [("EXO.1.1", .obj [("v", .str "Exodus 1:1")])])⟩

def sampleBad : InputFile :=
  ⟨"bad.json", .error "Expecting value: line 1 column 1"⟩

def sampleNoR : InputFile :=
  ⟨"a.json", .ok (.obj [("X", .obj [("v", .str "Gen")])])⟩

def sampleRonly : InputFile :=
  ⟨"b.json", .ok (.obj [("X", .obj [("r", .obj [("y", .num 2)])])])⟩

def sampleStrRec : InputFile :=
  ⟨"a.json", .ok (.obj [("X", .str "hello")])⟩

/-! ### Claim C1 -/

/-- C1 counterexample: with `a.json` mapping `X` to a record without `r`
and `b.json` mapping `X` to a record whose `r` is `{"y": 2}`, the union
of the `r` sub-mappings seen for `X` is `{"y": 2}`, yet the merged entry
for `X` carries no `r` at all — the claim's promise that the merged
entry's `r` is the union of all `r` sub-mappings seen fails. -/
theorem merge_C1_counterexample :
    rUnionSeen [sampleNoR, sampleRonly] "X" = [("y", .num 2)] ∧
    ¬ ∃ rec, lookup? (mergedOf [sampleNoR, sampleRonly]) "X" = some rec ∧
      ∃ o, rec = .obj o ∧
        lookup? o "r" = some (.obj (rUnionSeen [sampleNoR, sampleRonly] "X")) := by
  refine ⟨rfl, ?_⟩
  rintro ⟨rec, h1, o, rfl, h2⟩
  have hcalc : lookup? (mergedOf [sampleNoR, sampleRonly]) "X" =
      some (JValue.obj [("v", JValue.str "Gen")]) := rfl
  rw [hcalc] at h1
  simp only [Option.some.injEq, JValue.obj.injEq] at h1
  subst h1
  have hnone : lookup? [("v", JValue.str "Gen")] "r" = none := rfl
  rw [hnone] at h2
  exact Option.noConfusion h2

/-- C1 amended: over wellformed input files, every verse identifier
occurring in any parsed file appears exactly once in the combined
mapping (its keys are duplicate-free and contain exactly the occurring
identifiers), and the merged entry equals `combineCont first rest`: the
first occurrence with — only when that first occurrence itself carries
an `r` sub-mapping — `r` replaced by the left-to-right union of all `r`
sub-mappings seen (later files win per key).  When the first occurrence
lacks `r`, the entry is exactly the first occurrence and later `r`s are
dropped. -/
theorem merge_C1_amended (files : List InputFile)
    (h : files.all wfFile = true) (vid : String) :
    (keysOf (mergedOf files)).Nodup ∧
    (vid ∈ keysOf (mergedOf files) ↔ occurrences files vid ≠ []) ∧
    (∀ v0 vs, occurrences files vid = v0 :: vs →
      lookup? (mergedOf files) vid = some (combineCont v0 vs)) := by
  have hwfL : ∀ f ∈ files, wfFile f = true := List.all_eq_true.mp h
  have hwfM : ∀ f ∈ files, wfFileM f = true := fun f hf => wfFile_fileM (hwfL f hf)
  have hchar := @merged_lookup files vid hwfM
  refine ⟨?_, ?_, ?_⟩
  · rw [mergedOf_eq hwfM]
    exact nodup_keys_mergeFold (by simp [keysOf])
  · constructor
    · intro hmem hocc
      rw [hocc] at hchar
      have hnone : lookup? (mergedOf files) vid = none := hchar
      rw [lookup?_eq_none_iff] at hnone
      exact hnone hmem
    · intro hocc
      cases ho : occurrences files vid with
      | nil => exact absurd ho hocc
      | cons v0 vs =>
        rw [ho] at hchar
        have hsome : lookup? (mergedOf files) vid = some (combineCont v0 vs) := hchar
        rw [← hasKey_iff_mem]
        simp [hasKey, hsome]
  · intro v0 vs ho
    rw [ho] at hchar
    exact hchar

/-- Witness for C1 amended, at the counterexample's two files. -/
theorem merge_C1_amended_witness :
    ([sampleNoR, sampleRonly].all wfFile = true) ∧
    ((keysOf (mergedOf [sampleNoR, sampleRonly])).Nodup ∧
    ("X" ∈ keysOf (mergedOf [sampleNoR, sampleRonly]) ↔
      occurrences [sampleNoR, sampleRonly] "X" ≠ []) ∧
    (∀ v0 vs, occurrences [sampleNoR, sampleRonly] "X" = v0 :: vs →
      lookup? (mergedOf [sampleNoR, sampleRonly]) "X" = some (combineCont v0 vs))) :=
  ⟨rfl, merge_C1_amended [sampleNoR, sampleRonly] rfl "X"⟩

/-! ### Claim C2 -/

/-- C2 counterexample: a single input file whose top-level object maps
`X` to the string `"hello"` parses fine and merges fine, but the
statistics line `sum(len(v.get('r', {})) ...)` runs outside any `try`
and raises `AttributeError` on the string record, so the program does
not run to completion. -/
theorem merge_C2_counterexample :
    runProgram [sampleStrRec] true = .error .attrError := rfl

/-- C2 amended: provided every record of every successfully parsed file
is a JSON object whose `r` field (when present) is an object and whose
`v` field (when present) is a string that is empty or contains a
non-whitespace token, or a falsy value, the whole program (merge then
analysis) runs to completion without an uncaught exception, for any
input files (parse failures included) and whether or not the output
write succeeds. -/
theorem merge_C2_amended (files : List InputFile) (w : Bool)
    (h : files.all wfFile = true) :
    ∃ out tally, runProgram files w = .ok (out, tally) :=
  runProgram_ok w h

/-- Witness for C2 amended: one good file, one file that fails to
parse, and a failing output write. -/
theorem merge_C2_amended_witness :
    ([sampleA, sampleBad].all wfFile = true) ∧
    ∃ out tally, runProgram [sampleA, sampleBad] false = .ok (out, tally) :=
  ⟨rfl, merge_C2_amended [sampleA, sampleBad] false rfl⟩

/-! ### Claim C3 -/

/-- C3 counterexample: a record whose `v` field is the number `1` does
not have a non-empty string `v`, so the claim says it is silently
excluded from the tally; but `1` is truthy, so the code calls
`.split()` on it and raises `AttributeError` instead. -/
theorem analyze_C3_counterexample :
    analyze_data [("X", .obj [("v", .num 1)])] = .error .attrError := rfl

/-- C3 amended: on records that are JSON objects whose `v` field is a
string that is empty or contains a token, or a falsy value, the
analyzer returns a tally counting exactly the records whose `v` is a
string with at least one whitespace-delimited token, each under its
first token (`booksOf`); records with an absent or falsy `v` are
silently excluded.  (Truthy non-string `v`s, and non-empty all-whitespace
string `v`s, are excluded by the hypothesis: on them the analyzer
raises instead.) -/
theorem analyze_C3_amended (m : Obj)
    (h : m.all (fun kv => wfRecordA kv.2) = true) :
    ∃ tally, analyze_data m = .ok tally ∧
      ∀ b, natLookup? tally b =
        if (booksOf m).count b = 0 then none else some ((booksOf m).count b) := by
  have hA := List.all_eq_true.mp h
  refine ⟨(booksOf m).foldl bump [], analyze_data_eq (fun p hp => hA p hp), ?_⟩
  intro b
  have hfb := natLookup?_foldl_bump (booksOf m) [] b
  simpa [natLookup?] using hfb

/-- Witness for C3 amended: two Genesis verses, one verse without `v`. -/
theorem analyze_C3_amended_witness :
    (([("GEN.1.1", JValue.obj [("v", JValue.str "Genesis 1:1")]),
       ("GEN.1.2", JValue.obj [("v", JValue.str "Genesis 1:2")]),
       ("Q", JValue.obj [])] : Obj).all (fun kv => wfRecordA kv.2) = true) ∧
    ∃ tally, analyze_data [("GEN.1.1", JValue.obj [("v", JValue.str "Genesis 1:1")]),
       ("GEN.1.2", JValue.obj [("v", JValue.str "Genesis 1:2")]),
       ("Q", JValue.obj [])] = .ok tally ∧
      ∀ b, natLookup? tally b =
        if (booksOf [("GEN.1.1", JValue.obj [("v", JValue.str "Genesis 1:1")]),
             ("GEN.1.2", JValue.obj [("v", JValue.str "Genesis 1:2")]),
             ("Q", JValue.obj [])]).count b = 0 then none
        else some ((booksOf [("GEN.1.1", JValue.obj [("v", JValue.str "Genesis 1:1")]),
             ("GEN.1.2", JValue.obj [("v", JValue.str "Genesis 1:2")]),
             ("Q", JValue.obj [])]).count b) :=
  ⟨rfl, analyze_C3_amended _ rfl⟩

/-! ### Claim C4 -/

/-- C4: when every file parses to a JSON object of wellformed records
and the verse identifiers are globally duplicate-free, the merge
succeeds and the combined mapping is exactly the concatenation of all
files' entries in processing order — their union — and its size is the
sum of the files' verse counts. -/
theorem merge_C4 (files : List InputFile) (w : Bool)
    (h1 : files.all wfFileM = true)
    (h2 : files.all fileIsObj = true)
    (h3 : (keysOf (allEntries files)).Nodup) :
    ∃ out, merge_json_files files w = .ok out ∧
      out.merged = allEntries files ∧
      out.merged.length = (files.map (fun f => (fileEntries f).length)).sum := by
  have hwfM : ∀ f ∈ files, wfFileM f = true := List.all_eq_true.mp h1
  obtain ⟨out, hm, hmm⟩ := merge_json_files_ok w hwfM
  have hfold : mergedOf files = allEntries files := by
    rw [mergedOf_eq hwfM]
    have hfresh := @mergeFold_of_fresh (allEntries files) []
    simpa [keysOf] using hfresh (by simpa [keysOf] using h3)
  refine ⟨out, hm, by rw [hmm, hfold], ?_⟩
  rw [hmm, hfold]
  unfold allEntries
  rw [List.length_flatten, List.map_map]
  exact ((sortFiles_perm files).map fun f => (fileEntries f).length).sum_eq

/-- Witness for C4: two wellformed files with disjoint identifiers. -/
theorem merge_C4_witness :
    ([sampleA, sampleC].all wfFileM = true) ∧
    ([sampleA, sampleC].all fileIsObj = true) ∧
    (keysOf (allEntries [sampleA, sampleC])).Nodup ∧
    ∃ out, merge_json_files [sampleA, sampleC] true = .ok out ∧
      out.merged = allEntries [sampleA, sampleC] ∧
      out.merged.length =
        ([sampleA, sampleC].map (fun f => (fileEntries f).length)).sum :=
  ⟨rfl, rfl, by decide, merge_C4 [sampleA, sampleC] true rfl rfl (by decide)⟩

/-! ### Claim C5 -/

/-- C5: over wellformed files, when a verse identifier is seen exactly
twice and the two records do not both carry an `r` sub-mapping, the
merged entry is exactly the first record, completely unchanged —
including its own `r` when it has one. -/
theorem merge_C5 (files : List InputFile) (vid : String) (rec1 rec2 : JValue)
    (h : files.all wfFile = true)
    (hocc : occurrences files vid = [rec1, rec2])
    (hnr : (jHasR rec1 && jHasR rec2) = false) :
    lookup? (mergedOf files) vid = some rec1 := by
  have hwfL : ∀ f ∈ files, wfFile f = true := List.all_eq_true.mp h
  have hwfM : ∀ f ∈ files, wfFileM f = true := fun f hf => wfFile_fileM (hwfL f hf)
  have hchar := @merged_lookup files vid hwfM
  rw [hocc] at hchar
  have hsome : lookup? (mergedOf files) vid = some (combineCont rec1 [rec2]) := hchar
  have hwf1 : wfRecord rec1 = true :=
    wf_occurrences hwfL rec1 (by rw [hocc]; exact List.mem_cons_self _ _)
  have hwf2 : wfRecord rec2 = true :=
    wf_occurrences hwfL rec2
      (by rw [hocc]; exact List.mem_cons_of_mem _ (List.mem_cons_self _ _))
  obtain ⟨co1, rfl, hwfR1⟩ := wfRecordM_obj (wfRecord_M hwf1)
  obtain ⟨co2, rfl, hwfR2⟩ := wfRecordM_obj (wfRecord_M hwf2)
  cases h1 : lookup? co1 "r" with
  | none =>
    have hcc : combineCont (.obj co1) [.obj co2] = .obj co1 := by
      simp only [combineCont, h1]
    rw [hsome, hcc]
  | some rc =>
    obtain ⟨ro, rfl⟩ := wfR_lookup hwfR1 h1
    have hr1 : jHasR (JValue.obj co1) = true := by
      simp [jHasR, hasKey, h1]
    have hr2 : jHasR (JValue.obj co2) = false := by
      cases hj : jHasR (JValue.obj co2) with
      | false => rfl
      | true => rw [hr1, hj] at hnr; simp at hnr
    have h2 : lookup? co2 "r" = none := by
      simp only [jHasR, hasKey] at hr2
      cases hl : lookup? co2 "r" with
      | none => rfl
      | some x => rw [hl] at hr2; simp at hr2
    have hcc : combineCont (.obj co1) [.obj co2] = .obj co1 := by
      simp only [combineCont, h1, List.foldl_cons, List.foldl_nil, updR, h2]
      exact congrArg JValue.obj (setKey_lookup_eq h1)
    rw [hsome, hcc]

/-- Witness for C5: the identifier `X` is shared by the two files and
the second record lacks `r`; the theorem yields the first record
unchanged.  Here the first record has no `r`, the second does. -/
theorem merge_C5_witness :
    ([sampleNoR, sampleRonly].all wfFile = true) ∧
    (occurrences [sampleNoR, sampleRonly] "X" =
      [.obj [("v", .str "Gen")], .obj [("r", .obj [("y", .num 2)])]]) ∧
    ((jHasR (.obj [("v", .str "Gen")]) &&
      jHasR (.obj [("r", .obj [("y", .num 2)])])) = false) ∧
    lookup? (mergedOf [sampleNoR, sampleRonly]) "X" =
      some (.obj [("v", .str "Gen")]) :=
  ⟨rfl, rfl, rfl, merge_C5 [sampleNoR, sampleRonly] "X" _ _ rfl rfl rfl⟩

/-! ### Claim C6 -/

/-- C6: when some file fails to parse (and filenames are distinct, as
they are inside one directory), the combined mapping the merge loop
builds equals the one built from the successfully parsed files alone —
each bad file is skipped whole, and every verse of every valid file is
still merged. -/
theorem merge_C6 (files : List InputFile)
    (hnd : (files.map InputFile.name).Nodup)
    (hbad : ∃ f ∈ files, fileOk f = false) :
    mergedOf files = mergedOf (files.filter fileOk) :=
  mergedOf_filter_fileOk hnd

/-- Witness for C6: a parse failure sits between two good files. -/
theorem merge_C6_witness :
    (([sampleA, sampleBad, sampleC].map InputFile.name).Nodup) ∧
    (∃ f ∈ [sampleA, sampleBad, sampleC], fileOk f = false) ∧
    mergedOf [sampleA, sampleBad, sampleC] =
      mergedOf ([sampleA, sampleBad, sampleC].filter fileOk) :=
  ⟨by decide,
   ⟨sampleBad, List.mem_cons_of_mem _ (List.mem_cons_self _ _), rfl⟩,
   merge_C6 [sampleA, sampleBad, sampleC] (by decide)
     ⟨sampleBad, List.mem_cons_of_mem _ (List.mem_cons_self _ _), rfl⟩⟩

/-! ### Claim C7 -/

/-- C7: with zero input files the merge returns the empty combined
mapping, raises nothing, and never attempts to write the output file,
whatever the write would have done. -/
theorem merge_C7 (w : Bool) :
    merge_json_files [] w = .ok ⟨[], false, false⟩ := rfl

/-! ### Claim C8 -/

/-- C8: the returned in-memory mapping does not depend on whether the
output write succeeds; in particular a run whose write fails returns
`ok` with exactly the mapping of the successful-write run, so the
subsequent analysis sees the complete merge result. -/
theorem merge_C8 (files : List InputFile) (w : Bool) :
    (merge_json_files files false).map MergeOutcome.merged =
      (merge_json_files files w).map MergeOutcome.merged ∧
    (∀ out, merge_json_files files true = .ok out →
      merge_json_files files false =
        .ok ⟨out.merged, out.attemptedWrite, false⟩) := by
  refine ⟨merge_json_files_merged_indep files false w, ?_⟩
  intro out hout
  unfold merge_json_files at hout ⊢
  by_cases hs : (sortFiles files).isEmpty = true
  · simp only [hs, if_true] at hout ⊢
    cases hout
    rfl
  · have hs' : (sortFiles files).isEmpty = false := by simpa using hs
    simp only [hs', Bool.false_eq_true, if_false] at hout ⊢
    cases ht : totalReferences ((sortFiles files).foldl processFile []) with
    | error e => rw [ht] at hout; exact Except.noConfusion hout
    | ok n =>
      rw [ht] at hout
      cases hout
      rfl

/-! ### Claim C9 -/

/-- C9: the merge is a deterministic function of the set of input files
(their names and contents): any two enumeration orders of the same
files — with the distinct filenames a directory guarantees — produce
identical results, because processing order is fixed by the
lexicographic filename sort. -/
theorem merge_C9 (files1 files2 : List InputFile) (w : Bool)
    (hp : List.Perm files1 files2)
    (hnd : (files1.map InputFile.name).Nodup) :
    merge_json_files files1 w = merge_json_files files2 w := by
  have hsort : sortFiles files1 = sortFiles files2 := sortFiles_eq_of_perm hp hnd
  unfold merge_json_files
  rw [hsort]

/-- Witness for C9: the same two files in both orders. -/
theorem merge_C9_witness :
    (List.Perm [sampleA, sampleC] [sampleC, sampleA]) ∧
    (([sampleA, sampleC].map InputFile.name).Nodup) ∧
    merge_json_files [sampleA, sampleC] true =
      merge_json_files [sampleC, sampleA] true :=
  ⟨List.Perm.swap sampleC sampleA [], by decide,
   merge_C9 [sampleA, sampleC] [sampleC, sampleA] true
     (List.Perm.swap sampleC sampleA []) (by decide)⟩

/-! ### Claim C10 -/

/-- C10: a file that parses to a non-object top-level value is treated
exactly like a parse failure: the merge state is left unchanged (the
whole file is skipped, no entry of it reaches the combined mapping) and
the outcome coincides with that of a parse error, while merging
continues with the remaining files. -/
theorem merge_C10 (m : Obj) (fname : String) (v : JValue) (e : String)
    (h : isObj v = false) :
    processFile m ⟨fname, .ok v⟩ = m ∧
    processFile m ⟨fname, .ok v⟩ = processFile m ⟨fname, .error e⟩ := by
  cases v with
  | obj o => simp [isObj] at h
  | null => exact ⟨rfl, rfl⟩
  | bool b => exact ⟨rfl, rfl⟩
  | num n => exact ⟨rfl, rfl⟩
  | str s => exact ⟨rfl, rfl⟩
  | arr l => exact ⟨rfl, rfl⟩

/-- Witness for C10: a top-level JSON array into a non-empty merge
state. -/
theorem merge_C10_witness :
    (isObj (.arr [.str "GEN.1.1"]) = false) ∧
    (processFile [("GEN.1.1", JValue.obj [])] ⟨"z.json", .ok (.arr [.str "GEN.1.1"])⟩ =
      [("GEN.1.1", JValue.obj [])] ∧
    processFile [("GEN.1.1", JValue.obj [])] ⟨"z.json", .ok (.arr [.str "GEN.1.1"])⟩ =
      processFile [("GEN.1.1", JValue.obj [])] ⟨"z.json", .error "bad"⟩) :=
  ⟨rfl, merge_C10 [("GEN.1.1", JValue.obj [])] "z.json" (.arr [.str "GEN.1.1"]) "bad" rfl⟩

end BibleMerge
